import Mathlib

/-!
Shallow embedding of `extraer-proyecto.py`, a tree exporter that walks the
current directory, prunes excluded subdirectories, selects files by extension
and concatenates their contents (with path headers) into a single output file.

The filesystem snapshot seen by one run is modelled as a tree of entries; each
file carries the outcome its `open(..., 'r')` would have (its decoded text, or
the exception message).  The program is embedded at the level of its individual
`fout.write` calls (`walkW`), together with a record-level view (`walkRecs`),
a trace of the file-open operations it performs (`walkOps`), and the resulting
filesystem transformation (`run`).
-/

namespace Extraer

/-- The extension allow-list `extensiones` of the script. -/
def extensiones : List String := [".swift", ".xib", ".storyboard", ".plist", ".json", ".md"]

/-- The directory-name exclusion set `excluir_directorios` of the script. -/
def excluir_directorios : List String := ["Pods", ".git", "DerivedData", "build", ".build"]

/-- The hardcoded output file name `archivo_salida`. -/
def archivo_salida : String := "proyecto_swift.txt"

def dotChar : Char := '.'

def sepChar : Char := '/'

def testChars : List Char := ['t', 'e', 's', 't']

/-- Python's `str.lower` on the characters of a string (the directory names
compared here are ASCII, where the two agree pointwise). -/
def lowerL (cs : List Char) : List Char := cs.map Char.toLower

/-- Index of the last occurrence of `c`, mirroring Python's `str.rfind` (as an
`Option` instead of `-1`). -/
def rlast (c : Char) : List Char → Option Nat
  | [] => none
  | a :: as =>
      match rlast c as with
      | some i => some (i + 1)
      | none => if a = c then some 0 else none

/-- The extension component `os.path.splitext(p)[1]` (posix rules): the suffix
from the last dot on, unless every character of the basename before that dot is
itself a dot (leading dots carry no extension). -/
def splitext_ext (p : String) : String :=
  let cs := p.data
  match rlast dotChar cs with
  | none => ""
  | some di =>
      let fi : Nat :=
        match rlast sepChar cs with
        | none => 0
        | some k => k + 1
      if fi ≤ di then
        if ((cs.drop fi).take (di - fi)).all (fun c => c = dotChar) then ""
        else String.mk (cs.drop di)
      else ""

/-- Python's `d.startswith('.')`. -/
def startsDot (d : String) : Bool :=
  match d.data with
  | [] => false
  | c :: _ => c = dotChar

/-- Does `needle` occur at the start of `haystack`? -/
def startsWithL : List Char → List Char → Bool
  | [], _ => true
  | _ :: _, [] => false
  | a :: as, b :: bs => a = b && startsWithL as bs

/-- Does `needle` occur anywhere inside `haystack`?  (Python's `in` on `str`.) -/
def hasSubL (needle : List Char) : List Char → Bool
  | [] => needle.isEmpty
  | c :: cs => startsWithL needle (c :: cs) || hasSubL needle cs

/-- The pruning condition of the walk: a subdirectory name `d` is kept iff
`d not in excluir_directorios and not d.startswith('.') and 'test' not in d.lower()`. -/
def keepDir (d : String) : Bool :=
  !(excluir_directorios.contains d) && !(startsDot d) && !(hasSubL testChars (lowerL d.data))

/-- Outcome of `open(ruta, 'r', encoding='utf-8', errors='ignore')` + `read()`
for one file in this snapshot: the decoded text, or the exception message. -/
inductive ReadRes where
  | ok : String → ReadRes
  | err : String → ReadRes
deriving DecidableEq

/-- One directory entry of the snapshot: a file (with its read outcome) or a
subdirectory with its own entries, in directory-listing order. -/
inductive Entry where
  | file : String → ReadRes → Entry
  | dir : String → List Entry → Entry

/-- `os.path.join(root, name)` for the paths this program builds (a root that
never ends in a separator and a bare name). -/
def pathJoin (root name : String) : String := root ++ "/" ++ name

/-- The starting point of the walk, `os.walk('.')`. -/
def curDir : String := "."

/-- The text the script writes for the body of a record: the file's content on
a successful read, or the `f"[Error leyendo {ruta}: {e}]\n"` annotation. -/
def bodyOf (ruta : String) : ReadRes → String
  | .ok c => c
  | .err e => "[Error leyendo " ++ ruta ++ ": " ++ e ++ "]\n"

/-- The `fout.write` calls issued for one file of the listing: a header write
and a body write when the extension is allow-listed, nothing otherwise. -/
def procFileW (root name : String) (r : ReadRes) : List String :=
  if extensiones.contains (splitext_ext name) then
    ["\n\n===== " ++ pathJoin root name ++ " =====\n", bodyOf (pathJoin root name) r]
  else []

/-- Writes produced by the `for file in files` loop of one `os.walk` triple. -/
def filesW (root : String) : List Entry → List String
  | [] => []
  | .file n r :: es => procFileW root n r ++ filesW root es
  | .dir _ _ :: es => filesW root es

/-- Writes produced below the current directory: `os.walk` recurses, in listing
order, into exactly the subdirectories that survive the `dirs[:]` pruning. -/
def dirsW (root : String) : List Entry → List String
  | [] => []
  | .file _ _ :: es => dirsW root es
  | .dir d ch :: es =>
      (if keepDir d then
        filesW (pathJoin root d) ch ++ dirsW (pathJoin root d) ch
      else []) ++ dirsW root es

/-- All writes of a walk rooted at `root` over listing `es`: the current
directory's file records first, then the kept subtrees in order. -/
def walkW (root : String) (es : List Entry) : List String :=
  filesW root es ++ dirsW root es

/-- Sequential concatenation of the `fout.write` payloads. -/
def concatAll : List String → String
  | [] => ""
  | s :: ss => s ++ concatAll ss

/-- The final content of `proyecto_swift.txt` for a run over snapshot `tree`. -/
def outputOf (tree : List Entry) : String := concatAll (walkW curDir tree)

/-- One record of the output document: the path written in its header and the
body (content or error annotation) that follows. -/
structure Record where
  ruta : String
  body : String
deriving DecidableEq

/-- Record emitted for one visited file: `some` iff the extension check
`os.path.splitext(file)[1] in extensiones` passes. -/
def mkRecord (root name : String) (r : ReadRes) : Option Record :=
  if extensiones.contains (splitext_ext name) then
    some ⟨pathJoin root name, bodyOf (pathJoin root name) r⟩
  else none

/-- Records emitted by the `for file in files` loop of one `os.walk` triple. -/
def fileRecords (root : String) : List Entry → List Record
  | [] => []
  | .file n r :: es => (mkRecord root n r).toList ++ fileRecords root es
  | .dir _ _ :: es => fileRecords root es

/-- Records emitted below the current directory (kept subdirectories only). -/
def dirRecords (root : String) : List Entry → List Record
  | [] => []
  | .file _ _ :: es => dirRecords root es
  | .dir d ch :: es =>
      (if keepDir d then
        fileRecords (pathJoin root d) ch ++ dirRecords (pathJoin root d) ch
      else []) ++ dirRecords root es

/-- All records of a walk rooted at `root` over listing `es`. -/
def walkRecs (root : String) (es : List Entry) : List Record :=
  fileRecords root es ++ dirRecords root es

/-- The textual form of one record inside the output document: a blank line,
the `===== <ruta> =====` header line, then the body directly. -/
def renderRecord (r : Record) : String :=
  "\n\n===== " ++ r.ruta ++ " =====\n" ++ r.body

/-- Paths of the directories the walk actually descends into. -/
def visitedD (root : String) : List Entry → List String
  | [] => []
  | .file _ _ :: es => visitedD root es
  | .dir d ch :: es =>
      (if keepDir d then
        pathJoin root d :: visitedD (pathJoin root d) ch
      else []) ++ visitedD root es

/-- The listing with every excluded directory (and its whole subtree) erased,
at every depth. -/
def pruneList : List Entry → List Entry
  | [] => []
  | .file n r :: es => .file n r :: pruneList es
  | .dir d ch :: es =>
      if keepDir d then .dir d (pruneList ch) :: pruneList es
      else pruneList es

/-- A listing is clean when no directory in it, at any depth, matches the
exclusion rules. -/
def goodTree : List Entry → Bool
  | [] => true
  | .file _ _ :: es => goodTree es
  | .dir d ch :: es => keepDir d && goodTree ch && goodTree es

/-- A file-open operation performed by the run: `open(..., 'w')` on the output
file or `open(..., 'r')` on a selected file. -/
inductive FsOp where
  | openW : String → FsOp
  | openR : String → FsOp
deriving DecidableEq

/-- Is the operation an open-for-write? -/
def FsOp.isW : FsOp → Bool
  | .openW _ => true
  | .openR _ => false

/-- The read performed for one file of the listing: `open(ruta, 'r')` happens
exactly when the extension check passes. -/
def procFileOps (root name : String) : List FsOp :=
  if extensiones.contains (splitext_ext name) then [FsOp.openR (pathJoin root name)]
  else []

/-- Reads issued by the `for file in files` loop of one `os.walk` triple. -/
def filesOps (root : String) : List Entry → List FsOp
  | [] => []
  | .file n _ :: es => procFileOps root n ++ filesOps root es
  | .dir _ _ :: es => filesOps root es

/-- Reads issued below the current directory (kept subdirectories only). -/
def dirsOps (root : String) : List Entry → List FsOp
  | [] => []
  | .file _ _ :: es => dirsOps root es
  | .dir d ch :: es =>
      (if keepDir d then
        filesOps (pathJoin root d) ch ++ dirsOps (pathJoin root d) ch
      else []) ++ dirsOps root es

/-- All file-open operations of a walk rooted at `root` over listing `es`. -/
def walkOps (root : String) (es : List Entry) : List FsOp :=
  filesOps root es ++ dirsOps root es

/-- The full operation trace of one run: `open(archivo_salida, 'w')` first,
then the reads of the walk. -/
def runOps (tree : List Entry) : List FsOp :=
  FsOp.openW archivo_salida :: walkOps curDir tree

/-- Create or overwrite the file named `archivo_salida` in the root listing
with content `c`, leaving every other entry untouched. -/
def setSalida : List Entry → String → List Entry
  | [], c => [.file archivo_salida (.ok c)]
  | .file n r :: es, c =>
      if n = archivo_salida then .file n (.ok c) :: es
      else .file n r :: setSalida es c
  | .dir d ch :: es, c => .dir d ch :: setSalida es c

/-- The root listing with the output file removed: what the run may not touch. -/
def dropSalida : List Entry → List Entry
  | [] => []
  | .file n r :: es =>
      if n = archivo_salida then dropSalida es
      else .file n r :: dropSalida es
  | .dir d ch :: es => .dir d ch :: dropSalida es

/-- The run as a transformation of the current directory's snapshot: it writes
`outputOf tree` into `proyecto_swift.txt` and does nothing else. -/
def run (tree : List Entry) : List Entry :=
  setSalida tree (outputOf tree)

/-- Content of the root-level output file after a run, if present. -/
def getSalida : List Entry → Option String
  | [] => none
  | .file n r :: es =>
      if n = archivo_salida then
        match r with
        | .ok c => some c
        | .err _ => none
      else getSalida es
  | .dir _ _ :: es => getSalida es

/-- The fixed scenario tree of the spec: `a.py`, `b.md` (content `hello`) and
`test_data/c.md`. -/
def demoTree : List Entry :=
  [ .file "a.py" (.ok "print(1)"),
    .file "b.md" (.ok "hello"),
    .dir "test_data" [.file "c.md" (.ok "x")] ]

/-! ### Helper lemmas -/

theorem concatAll_append (l₁ l₂ : List String) :
    concatAll (l₁ ++ l₂) = concatAll l₁ ++ concatAll l₂ := by
  induction l₁ with
  | nil => simp [concatAll, String.empty_append]
  | cons s ss ih => simp [concatAll, ih, String.append_assoc]

theorem keepDir_eq_false {d : String}
    (h : d ∈ excluir_directorios ∨ startsDot d = true ∨
      hasSubL testChars (lowerL d.data) = true) :
    keepDir d = false := by
  rcases h with h | h | h
  · have hc : excluir_directorios.contains d = true := List.elem_iff.mpr h
    unfold keepDir
    rw [hc]
    simp
  · unfold keepDir
    rw [h]
    simp
  · unfold keepDir
    rw [h]
    simp

theorem fileRecords_pruneList (es : List Entry) (root : String) :
    fileRecords root (pruneList es) = fileRecords root es := by
  induction es with
  | nil => simp [pruneList]
  | cons e es ih =>
      cases e with
      | file n r => simp [pruneList, fileRecords, ih]
      | dir d ch =>
          cases h : keepDir d <;> simp [pruneList, fileRecords, h, ih]

theorem dirRecords_pruneList : ∀ (es : List Entry) (root : String),
    dirRecords root (pruneList es) = dirRecords root es
  | [], _ => by simp [pruneList]
  | .file n r :: es, root => by
      simp [pruneList, dirRecords, dirRecords_pruneList es root]
  | .dir d ch :: es, root => by
      cases h : keepDir d
      · simp [pruneList, dirRecords, h, dirRecords_pruneList es root]
      · simp [pruneList, dirRecords, h, dirRecords_pruneList es root,
          dirRecords_pruneList ch (pathJoin root d), fileRecords_pruneList]

theorem visitedD_pruneList : ∀ (es : List Entry) (root : String),
    visitedD root (pruneList es) = visitedD root es
  | [], _ => by simp [pruneList]
  | .file n r :: es, root => by
      simp [pruneList, visitedD, visitedD_pruneList es root]
  | .dir d ch :: es, root => by
      cases h : keepDir d
      · simp [pruneList, visitedD, h, visitedD_pruneList es root]
      · simp [pruneList, visitedD, h, visitedD_pruneList es root,
          visitedD_pruneList ch (pathJoin root d)]

theorem goodTree_pruneList : ∀ (es : List Entry), goodTree (pruneList es) = true
  | [] => by simp [pruneList, goodTree]
  | .file n r :: es => by
      simp [pruneList, goodTree, goodTree_pruneList es]
  | .dir d ch :: es => by
      cases h : keepDir d
      · simp [pruneList, goodTree, h, goodTree_pruneList es]
      · simp [pruneList, goodTree, h, goodTree_pruneList es, goodTree_pruneList ch]

theorem walkRecs_file_cons (root name : String) (r : ReadRes) (es : List Entry) :
    walkRecs root (Entry.file name r :: es)
      = (mkRecord root name r).toList ++ walkRecs root es := by
  simp [walkRecs, fileRecords, dirRecords, List.append_assoc]

theorem filesW_render (es : List Entry) (root : String) :
    concatAll (filesW root es) = concatAll ((fileRecords root es).map renderRecord) := by
  induction es with
  | nil => rfl
  | cons e es ih =>
      cases e with
      | file n r =>
          by_cases h : splitext_ext n ∈ extensiones
          · simp [filesW, fileRecords, procFileW, mkRecord, h, ih, concatAll,
              renderRecord, String.append_assoc]
          · simp [filesW, fileRecords, procFileW, mkRecord, h, ih]
      | dir d ch => simp [filesW, fileRecords, ih]

theorem dirsW_render : ∀ (es : List Entry) (root : String),
    concatAll (dirsW root es) = concatAll ((dirRecords root es).map renderRecord)
  | [], _ => by simp [dirsW, dirRecords]
  | .file n r :: es, root => by
      simp [dirsW, dirRecords, dirsW_render es root]
  | .dir d ch :: es, root => by
      cases h : keepDir d
      · simp [dirsW, dirRecords, h, dirsW_render es root]
      · simp [dirsW, dirRecords, h, dirsW_render es root,
          dirsW_render ch (pathJoin root d), filesW_render, concatAll_append,
          List.map_append]

theorem walkW_render (es : List Entry) (root : String) :
    concatAll (walkW root es) = concatAll ((walkRecs root es).map renderRecord) := by
  simp [walkW, walkRecs, concatAll_append, List.map_append, filesW_render, dirsW_render]

theorem contains_salida_ext : extensiones.contains (splitext_ext archivo_salida) = false := by
  decide

theorem salida_ext_not_mem : splitext_ext archivo_salida ∉ extensiones := by decide

theorem procFileW_salida (root : String) (r : ReadRes) :
    procFileW root archivo_salida r = [] := by
  simp [procFileW, salida_ext_not_mem]

theorem mkRecord_salida (root : String) (r : ReadRes) :
    mkRecord root archivo_salida r = none := by
  simp [mkRecord, salida_ext_not_mem]

theorem filesW_setSalida (tree : List Entry) (root c : String) :
    filesW root (setSalida tree c) = filesW root tree := by
  induction tree with
  | nil => simp [setSalida, filesW, procFileW_salida]
  | cons e es ih =>
      cases e with
      | file n r =>
          by_cases h : n = archivo_salida
          · subst h
            simp [setSalida, filesW, procFileW_salida]
          · simp [setSalida, h, filesW, ih]
      | dir d ch => simp [setSalida, filesW, ih]

theorem dirsW_setSalida (tree : List Entry) (root c : String) :
    dirsW root (setSalida tree c) = dirsW root tree := by
  induction tree with
  | nil => simp [setSalida, dirsW]
  | cons e es ih =>
      cases e with
      | file n r =>
          by_cases h : n = archivo_salida
          · subst h
            simp [setSalida, dirsW]
          · simp [setSalida, h, dirsW, ih]
      | dir d ch => simp [setSalida, dirsW, ih]

theorem outputOf_setSalida (tree : List Entry) (c : String) :
    outputOf (setSalida tree c) = outputOf tree := by
  simp [outputOf, walkW, filesW_setSalida, dirsW_setSalida]

theorem setSalida_setSalida (tree : List Entry) (c c' : String) :
    setSalida (setSalida tree c) c' = setSalida tree c' := by
  induction tree with
  | nil => simp [setSalida]
  | cons e es ih =>
      cases e with
      | file n r =>
          by_cases h : n = archivo_salida
          · subst h
            simp [setSalida]
          · simp [setSalida, h, ih]
      | dir d ch => simp [setSalida, ih]

theorem dropSalida_setSalida (tree : List Entry) (c : String) :
    dropSalida (setSalida tree c) = dropSalida tree := by
  induction tree with
  | nil => simp [setSalida, dropSalida]
  | cons e es ih =>
      cases e with
      | file n r =>
          by_cases h : n = archivo_salida
          · subst h
            simp [setSalida, dropSalida]
          · simp [setSalida, dropSalida, h, ih]
      | dir d ch => simp [setSalida, dropSalida, ih]

theorem getSalida_setSalida (tree : List Entry) (c : String) :
    getSalida (setSalida tree c) = some c := by
  induction tree with
  | nil => simp [setSalida, getSalida]
  | cons e es ih =>
      cases e with
      | file n r =>
          by_cases h : n = archivo_salida
          · subst h
            simp [setSalida, getSalida]
          · simp [setSalida, getSalida, h, ih]
      | dir d ch => simp [setSalida, getSalida, ih]

theorem filesOps_noW (es : List Entry) (root : String) :
    (filesOps root es).filter FsOp.isW = [] := by
  induction es with
  | nil => rfl
  | cons e es ih =>
      cases e with
      | file n r =>
          by_cases h : splitext_ext n ∈ extensiones <;>
            simp [filesOps, procFileOps, h, ih, FsOp.isW]
      | dir d ch => simp [filesOps, ih]

theorem dirsOps_noW : ∀ (es : List Entry) (root : String),
    (dirsOps root es).filter FsOp.isW = []
  | [], _ => by simp [dirsOps]
  | .file n r :: es, root => by simp [dirsOps, dirsOps_noW es root]
  | .dir d ch :: es, root => by
      cases h : keepDir d
      · simp [dirsOps, h, dirsOps_noW es root]
      · simp [dirsOps, h, dirsOps_noW es root, dirsOps_noW ch (pathJoin root d),
          filesOps_noW]

theorem rlast_eq_none {c : Char} {cs : List Char} (h : c ∉ cs) : rlast c cs = none := by
  induction cs with
  | nil => rfl
  | cons a as ih =>
      simp only [List.mem_cons, not_or] at h
      obtain ⟨h1, h2⟩ := h
      simp [rlast, ih h2, Ne.symm h1]

theorem splitext_ext_nodot {name : String} (h : dotChar ∉ name.data) :
    splitext_ext name = "" := by
  simp [splitext_ext, rlast_eq_none h]

theorem splitext_ext_leadDot {name : String}
    (hd : startsDot name = true) (h : dotChar ∉ name.data.drop 1) :
    splitext_ext name = "" := by
  cases hcs : name.data with
  | nil => simp [startsDot, hcs] at hd
  | cons a as =>
      have ha : a = dotChar := by simpa [startsDot, hcs] using hd
      have has : dotChar ∉ as := by simpa [hcs] using h
      subst ha
      have h0 : rlast dotChar (dotChar :: as) = some 0 := by
        simp [rlast, rlast_eq_none has]
      simp only [splitext_ext, hcs, h0]
      cases hsep : rlast sepChar (dotChar :: as) with
      | none => simp
      | some k => simp

/-! ### Claim theorems -/

/-- Claim C1: a subdirectory whose name exactly matches an entry of the
exclusion set, or begins with the hidden marker `.`, or contains `test`
case-insensitively, is never descended into and contributes no records;
moreover the whole walk coincides, in emitted records and in visited
directories, with the walk of the tree in which every such directory (at any
nesting depth) has been erased together with its subtree, and that erased tree
contains no excluded directory. -/
theorem C1_pruning (root d : String) (ch es : List Entry)
    (h : d ∈ excluir_directorios ∨ startsDot d = true ∨
      hasSubL testChars (lowerL d.data) = true) :
    walkRecs root (Entry.dir d ch :: es) = walkRecs root es ∧
    visitedD root (Entry.dir d ch :: es) = visitedD root es ∧
    walkRecs root es = walkRecs root (pruneList es) ∧
    visitedD root es = visitedD root (pruneList es) ∧
    goodTree (pruneList es) = true := by
  have hk := keepDir_eq_false h
  refine ⟨?_, ?_, ?_, ?_, goodTree_pruneList es⟩
  · simp [walkRecs, fileRecords, dirRecords, hk]
  · simp [visitedD, hk]
  · simp [walkRecs, fileRecords_pruneList, dirRecords_pruneList]
  · simp [visitedD_pruneList]

/-- Witness for C1 at the excluded directory name `Pods`. -/
theorem C1_pruning_witness :
    ("Pods" ∈ excluir_directorios ∨ startsDot "Pods" = true ∨
      hasSubL testChars (lowerL "Pods".data) = true) ∧
    (walkRecs curDir (Entry.dir "Pods" [Entry.file "p.md" (ReadRes.ok "x")] :: [])
        = walkRecs curDir [] ∧
      visitedD curDir (Entry.dir "Pods" [Entry.file "p.md" (ReadRes.ok "x")] :: [])
        = visitedD curDir [] ∧
      walkRecs curDir [] = walkRecs curDir (pruneList []) ∧
      visitedD curDir [] = visitedD curDir (pruneList []) ∧
      goodTree (pruneList []) = true) :=
  ⟨Or.inl (by decide),
    C1_pruning curDir "Pods" [Entry.file "p.md" (ReadRes.ok "x")] [] (Or.inl (by decide))⟩

/-- Claim C2: a visited file yields a record exactly when its computed
extension is a member of the allow-list — the membership test is string
equality, hence exact and case-sensitive — and a file whose extension is not
in the allow-list contributes nothing to the walk. -/
theorem C2_extension_filter (root name : String) (r : ReadRes) (es : List Entry) :
    ((mkRecord root name r).isSome ↔ splitext_ext name ∈ extensiones) ∧
    walkRecs root (Entry.file name r :: es)
      = (mkRecord root name r).toList ++ walkRecs root es := by
  refine ⟨?_, walkRecs_file_cons root name r es⟩
  by_cases h : splitext_ext name ∈ extensiones <;> simp [mkRecord, h]

/-- Claim C3: an allow-listed file whose read succeeds emits exactly one
record, carrying its path relative to the traversal root and its content
verbatim, and the records of the rest of the walk are unchanged. -/
theorem C3_ok_record (root name c : String) (es : List Entry)
    (h : splitext_ext name ∈ extensiones) :
    walkRecs root (Entry.file name (ReadRes.ok c) :: es)
      = { ruta := pathJoin root name, body := c } :: walkRecs root es := by
  simp [walkRecs_file_cons, mkRecord, h, bodyOf]

/-- Witness for C3: `b.md` with content `hello` at the traversal root. -/
theorem C3_ok_record_witness :
    splitext_ext "b.md" ∈ extensiones ∧
    walkRecs curDir (Entry.file "b.md" (ReadRes.ok "hello") :: [])
      = { ruta := pathJoin curDir "b.md", body := "hello" } :: walkRecs curDir [] :=
  ⟨by decide, C3_ok_record curDir "b.md" "hello" [] (by decide)⟩

/-- Claim C4: a selected file whose read raises emits a record whose body is
the inline annotation naming the file's path and the failure text, and the
rest of the walk continues unchanged — one failing file never aborts the run. -/
theorem C4_error_record (root name e : String) (es : List Entry)
    (h : splitext_ext name ∈ extensiones) :
    walkRecs root (Entry.file name (ReadRes.err e) :: es)
      = { ruta := pathJoin root name,
          body := "[Error leyendo " ++ pathJoin root name ++ ": " ++ e ++ "]\n" }
          :: walkRecs root es := by
  simp [walkRecs_file_cons, mkRecord, h, bodyOf]

/-- Witness for C4: `locked.json` failing with a permission error. -/
theorem C4_error_record_witness :
    splitext_ext "locked.json" ∈ extensiones ∧
    walkRecs curDir (Entry.file "locked.json" (ReadRes.err "Permission denied") :: [])
      = { ruta := pathJoin curDir "locked.json",
          body := "[Error leyendo " ++ pathJoin curDir "locked.json" ++ ": "
            ++ "Permission denied" ++ "]\n" }
          :: walkRecs curDir [] :=
  ⟨by decide, C4_error_record curDir "locked.json" "Permission denied" [] (by decide)⟩

/-- Claim C5: the byte stream the run writes is exactly the concatenation,
over the records of the walk in order, of a blank line, the
`===== <ruta> =====` header line, and the record body directly — no other
separator appears between a record's body and the next record. -/
theorem C5_record_format (tree : List Entry) :
    outputOf tree = concatAll ((walkRecs curDir tree).map renderRecord) := by
  simpa [outputOf] using walkW_render tree curDir

theorem demo_filesW : filesW curDir demoTree = ["\n\n===== ./b.md =====\n", "hello"] := by
  have ha : splitext_ext "a.py" ∉ extensiones := by decide
  have hb : splitext_ext "b.md" ∈ extensiones := by decide
  simp [demoTree, filesW, procFileW, ha, hb, bodyOf, pathJoin, curDir]

theorem demo_dirsW : dirsW curDir demoTree = [] := by
  have hk : keepDir "test_data" = false := by decide
  simp [demoTree, dirsW, hk]

theorem demo_output : outputOf demoTree = "\n\n===== ./b.md =====\nhello" := by
  rw [outputOf, walkW, demo_filesW, demo_dirsW]
  decide

theorem demo_recs : walkRecs curDir demoTree = [{ ruta := "./b.md", body := "hello" }] := by
  have ha : splitext_ext "a.py" ∉ extensiones := by decide
  have hb : splitext_ext "b.md" ∈ extensiones := by decide
  have h1 : fileRecords curDir demoTree = [{ ruta := "./b.md", body := "hello" }] := by
    simp [demoTree, fileRecords, mkRecord, ha, hb, bodyOf, pathJoin, curDir]
  have hk : keepDir "test_data" = false := by decide
  have h2 : dirRecords curDir demoTree = [] := by
    simp [demoTree, dirRecords, hk]
  rw [walkRecs, h1, h2]
  simp

/-- Claim C6 as stated is false: in the scenario tree (`a.py`, `b.md` with
content `hello`, `test_data/c.md`) the output document is not the literal
string `===== ./b.md =====\n\nhello` — the blank line the program writes
precedes the header, and only a single newline separates the header from the
content. -/
theorem C6_counterexample :
    outputOf demoTree ≠ "===== ./b.md =====\n\nhello" := by
  rw [demo_output]
  decide

/-- Claim C6 amended: the scenario produces exactly one record, for `b.md`
(none for `a.py` or `c.md`), and the output document is the literal string
`\n\n===== ./b.md =====\nhello` — a blank line, then the header line
`===== ./b.md =====`, then `hello` directly after the header's newline. -/
theorem C6_scenario :
    walkRecs curDir demoTree = [{ ruta := "./b.md", body := "hello" }] ∧
    outputOf demoTree = "\n\n===== ./b.md =====\nhello" :=
  ⟨demo_recs, demo_output⟩

/-- Claim C7: a second run over the filesystem state produced by the first run
— identical listings except for the output file the first run wrote, which the
extension filter ignores — writes a byte-identical output document, and the
run transformation is idempotent. -/
theorem C7_idempotent (tree : List Entry) :
    outputOf (run tree) = outputOf tree ∧ run (run tree) = run tree := by
  have h : outputOf (run tree) = outputOf tree := by
    simpa [run] using outputOf_setSalida tree (outputOf tree)
  refine ⟨h, ?_⟩
  have h2 : outputOf (setSalida tree (outputOf tree)) = outputOf tree :=
    outputOf_setSalida tree (outputOf tree)
  rw [run, run, h2, setSalida_setSalida]

/-- Claim C8: the only open-for-write in the run's operation trace is the one
on `proyecto_swift.txt`; the run leaves every entry other than that output
file untouched, and stores the output document in it. -/
theorem C8_frame (tree : List Entry) :
    (runOps tree).filter FsOp.isW = [FsOp.openW archivo_salida] ∧
    dropSalida (run tree) = dropSalida tree ∧
    getSalida (run tree) = some (outputOf tree) := by
  refine ⟨?_, dropSalida_setSalida tree (outputOf tree),
    getSalida_setSalida tree (outputOf tree)⟩
  simp [runOps, walkOps, FsOp.isW, filesOps_noW, dirsOps_noW]

/-- Claim C9: the output file's own name has extension `.txt`, which the
allow-list rejects, so a listed file named `proyecto_swift.txt` never
contributes a record — no run can embed the output document inside itself. -/
theorem C9_no_self_record (root : String) (r : ReadRes) (es : List Entry) :
    extensiones.contains (splitext_ext archivo_salida) = false ∧
    mkRecord root archivo_salida r = none ∧
    walkRecs root (Entry.file archivo_salida r :: es) = walkRecs root es := by
  refine ⟨contains_salida_ext, mkRecord_salida root r, ?_⟩
  simp [walkRecs_file_cons, mkRecord_salida]

/-- Claim C10: a file name containing no dot, or whose only dot is its leading
character, has the empty string as computed extension; the empty extension is
not allow-listed, so such a file never yields a record, even when the name
textually ends in an allow-listed suffix. -/
theorem C10_empty_extension (root name : String) (r : ReadRes) (es : List Entry)
    (h : dotChar ∉ name.data ∨ (startsDot name = true ∧ dotChar ∉ name.data.drop 1)) :
    splitext_ext name = "" ∧
    extensiones.contains "" = false ∧
    walkRecs root (Entry.file name r :: es) = walkRecs root es := by
  have he : splitext_ext name = "" := by
    rcases h with h | ⟨h1, h2⟩
    · exact splitext_ext_nodot h
    · exact splitext_ext_leadDot h1 h2
  refine ⟨he, by decide, ?_⟩
  have hne : splitext_ext name ∉ extensiones := by
    rw [he]
    decide
  simp [walkRecs_file_cons, mkRecord, hne]

/-- Witness for C10 at the name `.swift`, whose only dot is its first
character yet which textually ends in the allow-listed suffix `.swift`. -/
theorem C10_empty_extension_witness :
    (dotChar ∉ ".swift".data ∨
      (startsDot ".swift" = true ∧ dotChar ∉ ".swift".data.drop 1)) ∧
    (splitext_ext ".swift" = "" ∧
      extensiones.contains "" = false ∧
      walkRecs curDir (Entry.file ".swift" (ReadRes.ok "x") :: []) = walkRecs curDir []) :=
  ⟨Or.inr ⟨by decide, by decide⟩,
    C10_empty_extension curDir ".swift" (ReadRes.ok "x") [] (Or.inr ⟨by decide, by decide⟩)⟩

end Extraer
